import Mathlib

/-!
Verification of the stats-collation utility (`tools/parse_stats.py`).

The file embeds the Python source shallowly:

* characters/strings are `Char` lists and `String`;
* `re.findall(r"\d+", s)` becomes `digitRuns`;
* the metric-value regex `[-+]?\d[\d,]*\.?\d*(?:[eE][-+]?\d+)?` becomes the
  deterministic matcher `matchNumAt` / `searchNum` (the pattern has no
  essential backtracking: every optional piece is decided by one lookahead);
* Python's `float` on the matched substrings becomes `floatOfChars : … → Option ℚ`
  (rational semantics; the claims only concern which substring is parsed);
* a Python `dict` becomes an insertion-ordered association list with
  overwrite-in-place (`dinsert`), matching CPython semantics;
* the file system is a map `FS : String → Option (List String)` from paths to
  the list of lines, `none` meaning the file cannot be opened;
* `csv.DictWriter` output becomes the header list plus a grid of `Cell`s.
-/

/-- Python `str.strip()`-style trim used by the parser (leading and trailing
whitespace removed). -/
def pyStrip (l : List Char) : List Char :=
  ((l.dropWhile Char.isWhitespace).reverse.dropWhile Char.isWhitespace).reverse

/-- Integer value of a digit string, as computed by Python's `int`. -/
def natOfDigits (ds : List Char) : ℕ :=
  ds.foldl (fun n c => 10 * n + (c.toNat - 48)) 0

theorem dropWhile_length_le (p : α → Bool) (l : List α) :
    (l.dropWhile p).length ≤ l.length := by
  induction l with
  | nil => simp
  | cons c cs ih =>
    rw [List.dropWhile_cons]
    by_cases h : p c = true
    · simp only [if_pos h]
      exact ih.trans (Nat.le_succ _)
    · simp [if_neg h]

/-- Maximal runs of characters satisfying `p`, in order; the characters not
satisfying `p` act as separators.  `runsBy Char.isDigit` is
`re.findall(r"\d+", ·)` and `runsBy (fun c => !c.isWhitespace)` is
`str.split()`. -/
def runsBy (p : Char → Bool) : List Char → List (List Char)
  | [] => []
  | [c] => if p c then [[c]] else []
  | c :: d :: cs =>
    if p c then
      if p d then
        match runsBy p (d :: cs) with
        | r :: rs => (c :: r) :: rs
        | [] => [[c]]
      else [c] :: runsBy p (d :: cs)
    else runsBy p (d :: cs)

/-- The defining equation of `runsBy` in terms of maximal `takeWhile` runs. -/
theorem runsBy_cons (p : Char → Bool) (c : Char) (cs : List Char) :
    runsBy p (c :: cs) =
      if p c then (c :: cs.takeWhile p) :: runsBy p (cs.dropWhile p)
      else runsBy p cs := by
  induction cs generalizing c with
  | nil => by_cases h : p c = true <;> simp [runsBy, h]
  | cons d cs' ih =>
    by_cases hc : p c = true
    · by_cases hd : p d = true
      · have hrec := ih d
        rw [if_pos hd] at hrec
        rw [if_pos hc]
        simp only [List.takeWhile_cons, hd, if_true, List.dropWhile_cons]
        show (if p c = true then
            (if p d = true then
              match runsBy p (d :: cs') with
              | r :: rs => (c :: r) :: rs
              | [] => [[c]]
            else [c] :: runsBy p (d :: cs'))
          else runsBy p (d :: cs')) = _
        rw [if_pos hc, if_pos hd, hrec]
      · rw [if_pos hc]
        simp only [List.takeWhile_cons, hd, List.dropWhile_cons]
        simp only [Bool.false_eq_true, if_false]
        show (if p c = true then
            (if p d = true then
              match runsBy p (d :: cs') with
              | r :: rs => (c :: r) :: rs
              | [] => [[c]]
            else [c] :: runsBy p (d :: cs'))
          else runsBy p (d :: cs')) = _
        rw [if_pos hc, if_neg (by simp [hd])]
    · show (if p c = true then
          (if p d = true then
            match runsBy p (d :: cs') with
            | r :: rs => (c :: r) :: rs
            | [] => [[c]]
          else [c] :: runsBy p (d :: cs'))
        else runsBy p (d :: cs')) = _
      rw [if_neg (by simp [hc]), if_neg (by simp [hc])]

/-- All maximal decimal-digit runs of a string: `re.findall(r"\d+", s)`. -/
def digitRuns (s : String) : List (List Char) :=
  runsBy Char.isDigit s.data

/-- Function `extract_dimension` from `tools/parse_stats.py`:
`numbers = re.findall(r"\d+", filename); int(numbers[-1]) if numbers else None`. -/
def extract_dimension (filename : String) : Option ℕ :=
  (digitRuns filename).getLast?.map natOfDigits

/-- Whitespace split discarding empty tokens: Python `str.split()`. -/
def splitWs (l : List Char) : List (List Char) :=
  runsBy (fun c => !c.isWhitespace) l

/-- Sign characters accepted by the `[-+]?` pieces of the number pattern. -/
def isSignChar (c : Char) : Bool := c == '-' || c == '+'

/-- Characters matched by the `[\d,]*` piece of the number pattern. -/
def isDigitComma (c : Char) : Bool := c.isDigit || c == ','

/-- The `(?:[eE][-+]?\d+)?` piece: the (possibly empty) list of characters the
greedy regex engine consumes for the optional exponent at this position. -/
def matchExp (cs : List Char) : List Char :=
  match cs with
  | e :: rest =>
    if e == 'e' || e == 'E' then
      match rest with
      | d :: _ =>
        if d.isDigit then
          e :: rest.takeWhile Char.isDigit
        else
          match rest with
          | s :: d2 :: tl =>
            if isSignChar s && d2.isDigit then
              e :: s :: (d2 :: tl).takeWhile Char.isDigit
            else []
          | _ => []
      | [] => []
    else []
  | [] => []

/-- The `\.?\d*(?:[eE][-+]?\d+)?` tail of the number pattern. -/
def matchFrac (cs : List Char) : List Char :=
  match cs with
  | c :: rest =>
    if c = '.' then
      '.' :: (rest.takeWhile Char.isDigit ++ matchExp (rest.dropWhile Char.isDigit))
    else (c :: rest).takeWhile Char.isDigit ++ matchExp ((c :: rest).dropWhile Char.isDigit)
  | [] => []

/-- The `\d[\d,]*\.?\d*(?:[eE][-+]?\d+)?` part (everything after the optional
sign): `none` when the pattern cannot match here. -/
def matchCore (cs : List Char) : Option (List Char) :=
  match cs with
  | d :: rest =>
    if d.isDigit then
      some (d :: (rest.takeWhile isDigitComma ++
        matchFrac (rest.dropWhile isDigitComma)))
    else none
  | [] => none

/-- Whether (and what) the full number pattern matches at the start of `cs`. -/
def matchNumAt (cs : List Char) : Option (List Char) :=
  match cs with
  | c :: rest =>
    if isSignChar c then (matchCore rest).map (fun m => c :: m)
    else matchCore cs
  | [] => none

/-- Search `number_pattern.search(cleaned)`: first (leftmost) match of the number
pattern anywhere in the list, returning the matched characters. -/
def searchNum : List Char → Option (List Char)
  | [] => none
  | c :: rest =>
    match matchNumAt (c :: rest) with
    | some m => some m
    | none => searchNum rest

/-- Exponent suffix accepted by Python `float` (`e`/`E`, optional sign, at
least one digit, nothing after), returned as the signed exponent. -/
def floatExp : List Char → Option ℤ
  | [] => some 0
  | e :: rest =>
    if e == 'e' || e == 'E' then
      match rest with
      | '-' :: ds =>
        if ds ≠ [] ∧ ds.all Char.isDigit then some (-(natOfDigits ds : ℤ)) else none
      | '+' :: ds =>
        if ds ≠ [] ∧ ds.all Char.isDigit then some (natOfDigits ds : ℤ) else none
      | ds =>
        if ds ≠ [] ∧ ds.all Char.isDigit then some (natOfDigits ds : ℤ) else none
    else none

/-- Python `float` on the substrings this program feeds it (optional sign,
digits, optional point and fraction, optional exponent), with exact rational
semantics. -/
def floatOfChars (cs : List Char) : Option ℚ :=
  let (sg, body) : ℚ × List Char :=
    match cs with
    | '-' :: rest => (-1, rest)
    | '+' :: rest => (1, rest)
    | rest => (1, rest)
  let ip := body.takeWhile Char.isDigit
  let r1 := body.dropWhile Char.isDigit
  match r1 with
  | '.' :: r2 =>
    let fp := r2.takeWhile Char.isDigit
    let r3 := r2.dropWhile Char.isDigit
    if ip = [] ∧ fp = [] then none
    else
      (floatExp r3).map (fun e =>
        sg * ((natOfDigits ip : ℚ) + (natOfDigits fp : ℚ) / 10 ^ fp.length) * 10 ^ e)
  | _ =>
    if ip = [] then none
    else (floatExp r1).map (fun e => sg * (natOfDigits ip : ℚ) * 10 ^ e)

/-- Line normalization from `parse_metrics_from_file`: remove parentheses,
turn colons into spaces. -/
def cleanLine (l : List Char) : List Char :=
  (l.filter (fun c => !(c == '(' || c == ')'))).map
    (fun c => if c == ':' then ' ' else c)

/-- One iteration of the parsing loop of `parse_metrics_from_file`: `none`
when the line is skipped, otherwise the metric name and value recorded. -/
def processLine (line : List Char) : Option (List Char × ℚ) :=
  let s := pyStrip line
  if s = [] then none
  else if s.head? = some '#' then none
  else
    let cleaned := cleanLine s
    let tokens := splitWs cleaned
    if tokens.length < 2 then none
    else
      match tokens with
      | t0 :: _ =>
        match searchNum cleaned with
        | none => none
        | some m =>
          match floatOfChars (m.filter (fun c => !(c == ','))) with
          | none => none
          | some v => some (t0, v)
      | [] => none

/-- Insertion into a Python `dict` modelled as an insertion-ordered
association list: overwrite in place when the key exists, append otherwise. -/
def dinsert (k : String) (v : α) : List (String × α) → List (String × α)
  | [] => [(k, v)]
  | p :: rest => if p.1 == k then (k, v) :: rest else p :: dinsert k v rest

/-- Lookup in a `dict`. -/
def dget (d : List (String × α)) (k : String) : Option α :=
  (d.find? (fun p => p.1 == k)).map Prod.snd

/-- Key list of a `dict` (in insertion order). -/
def dkeys (d : List (String × α)) : List String :=
  d.map Prod.fst

/-- The file system seen by the program: a path maps to the list of lines of
the file, or to `none` when the file is missing/unreadable. -/
def FS : Type := String → Option (List String)

/-- The accumulation `metrics[metric_name] = value` over all lines. -/
def foldLines (lines : List String) : List (String × ℚ) :=
  lines.foldl
    (fun d line =>
      match processLine line.data with
      | some (n, v) => dinsert (String.mk n) v d
      | none => d)
    []

/-- Function `parse_metrics_from_file`: metric record together with the warnings
printed to stderr.  A missing/unreadable file yields the empty record and a
warning; a readable file is folded line by line. -/
def parse_metrics_from_file (fs : FS) (filepath : String) :
    List (String × ℚ) × List String :=
  match fs filepath with
  | none => ([], ["Warning: file not found: " ++ filepath])
  | some lines => (foldLines lines, [])

/-- Python `os.path.basename` (POSIX): everything after the last slash. -/
def basename (p : String) : String :=
  String.mk ((p.data.reverse.takeWhile (fun c => !(c == '/'))).reverse)

/-- A CSV cell value as held in a row dictionary. -/
inductive Cell : Type where
  | num (q : ℚ)
  | dim (n : Option ℕ)
  | str (s : String)
deriving DecidableEq

/-- The row built for one file by `collate_metrics`: the parsed metric record
(as float cells) with `dimension` and `file` assigned afterwards. -/
def mkRow (metrics : List (String × ℚ)) (base : String) : List (String × Cell) :=
  dinsert "file" (Cell.str base)
    (dinsert "dimension" (Cell.dim (extract_dimension base))
      (metrics.map (fun p => (p.1, Cell.num p.2))))

/-- Function `collate_metrics`: one row per input path, in input order. -/
def collate_metrics (fs : FS) (filepaths : List String) : List (List (String × Cell)) :=
  filepaths.map (fun path =>
    mkRow (parse_metrics_from_file fs path).1 (basename path))

/-- The warnings emitted to stderr while collating. -/
def collateWarnings (fs : FS) (filepaths : List String) : List String :=
  filepaths.flatMap (fun path => (parse_metrics_from_file fs path).2)

/-- The header computation of `write_csv`, as a function of the key set given
in an arbitrary iteration order: `dimension` first if present, then `file` if
present, then the remaining keys sorted. -/
def fieldnamesOf (ks : List String) : List String :=
  (if "dimension" ∈ ks then ["dimension"] else []) ++
    (if "file" ∈ ks then ["file"] else []) ++
      List.insertionSort (· ≤ ·)
        ((ks.dedup).filter (fun k => !(k == "dimension" || k == "file")))

/-- The key-superset loop of `write_csv` (`all_keys.update(row.keys())`). -/
def allKeys (rows : List (List (String × Cell))) : List String :=
  rows.flatMap dkeys

/-- The header row written by `write_csv`. -/
def csvHeader (rows : List (List (String × Cell))) : List String :=
  fieldnamesOf (allKeys rows)

/-- Lookup `row.get(key, "")` in the writing loop. -/
def cellFor (row : List (String × Cell)) (key : String) : Cell :=
  (dget row key).getD (Cell.str "")

/-- The full CSV artifact written by `write_csv`: header plus one cell row per
input row. -/
def writeCSV (rows : List (List (String × Cell))) :
    List String × List (List Cell) :=
  let fns := csvHeader rows
  (fns, rows.map (fun row => fns.map (cellFor row)))

/-! ### Specification-side definitions

These follow the spec's words, for comparison with the code-side
definitions above. -/

/-- Spec: "optional leading sign". -/
def IsSignOpt (sgn : List Char) : Prop :=
  sgn = [] ∨ sgn = ['-'] ∨ sgn = ['+']

/-- Spec: "optional exponent suffix (e/E, optional sign, digits)". -/
def IsExpPart (ex : List Char) : Prop :=
  ex = [] ∨
    ∃ e sgn ds, ex = e :: (sgn ++ ds) ∧ (e = 'e' ∨ e = 'E') ∧ IsSignOpt sgn ∧
      ds ≠ [] ∧ ∀ c ∈ ds, c.isDigit = true

/-- Spec: the unsigned body of the decimal-number pattern: "digits with
optional embedded thousands separators (comma), optional decimal point and
fractional digits, optional exponent suffix". -/
def IsCoreTok (m : List Char) : Prop :=
  ∃ d run dot frac ex,
    m = (d :: run) ++ dot ++ frac ++ ex ∧
    d.isDigit = true ∧ (∀ c ∈ run, isDigitComma c = true) ∧
    (dot = [] ∨ dot = ['.']) ∧ (∀ c ∈ frac, c.isDigit = true) ∧ IsExpPart ex

/-- Spec: a substring matching "the decimal-number pattern: optional leading
sign, digits with optional embedded thousands separators (comma), optional
decimal point and fractional digits, optional exponent suffix". -/
def IsNumToken (m : List Char) : Prop :=
  ∃ sgn m0, IsSignOpt sgn ∧ IsCoreTok m0 ∧ m = sgn ++ m0

/-- Spec: the decimal-number pattern matches somewhere starting at offset
`i` of the line. -/
def NumMatchAt (cs : List Char) (i : ℕ) : Prop :=
  ∃ m rest, cs.drop i = m ++ rest ∧ IsNumToken m

/-- Spec: the name/value pairs produced by the individual lines of a file, in
line order (skipped lines produce nothing). -/
def producedPairs (lines : List String) : List (String × ℚ) :=
  lines.filterMap (fun l => (processLine l.data).map (fun p => (String.mk p.1, p.2)))

/-! ### Dictionary lemmas -/

theorem dget_nil (k : String) : dget ([] : List (String × α)) k = none := rfl

theorem dget_cons (p : String × α) (d : List (String × α)) (k : String) :
    dget (p :: d) k = if p.1 == k then some p.2 else dget d k := by
  simp only [dget, List.find?_cons]
  by_cases hp : (p.1 == k) = true
  · simp [hp]
  · simp only [Bool.not_eq_true] at hp
    simp [hp]

theorem dget_dinsert_self (k : String) (v : α) (d : List (String × α)) :
    dget (dinsert k v d) k = some v := by
  induction d with
  | nil => simp [dinsert, dget_cons]
  | cons p rest ih =>
    by_cases hp : (p.1 == k) = true
    · simp [dinsert, hp, dget_cons]
    · simp only [Bool.not_eq_true] at hp
      simp [dinsert, hp, dget_cons, ih]

theorem dget_dinsert_ne (k k2 : String) (v : α) (d : List (String × α))
    (hne : k ≠ k2) : dget (dinsert k v d) k2 = dget d k2 := by
  induction d with
  | nil =>
    have h2 : (k == k2) = false := by simpa using hne
    simp [dinsert, dget_cons, h2, dget_nil]
  | cons p rest ih =>
    by_cases hp : (p.1 == k) = true
    · have hpk : p.1 = k := by simpa using hp
      have h2 : (k == k2) = false := by simpa using hne
      simp [dinsert, hp, dget_cons, h2, hpk]
    · simp only [Bool.not_eq_true] at hp
      simp only [dinsert, hp, Bool.false_eq_true, if_false, dget_cons, ih]

theorem dkeys_dinsert (k : String) (v : α) (d : List (String × α)) :
    dkeys (dinsert k v d) = if k ∈ dkeys d then dkeys d else dkeys d ++ [k] := by
  induction d with
  | nil => simp [dinsert, dkeys]
  | cons p rest ih =>
    by_cases hp : (p.1 == k) = true
    · have hpk : p.1 = k := by simpa using hp
      simp [dinsert, hp, dkeys, hpk]
    · simp only [Bool.not_eq_true] at hp
      have hpk : ¬p.1 = k := by simpa using hp
      simp only [dinsert, hp, Bool.false_eq_true, if_false, dkeys, List.map_cons] at ih ⊢
      rw [ih]
      by_cases hm : k ∈ List.map Prod.fst rest
      · simp [List.mem_cons, hm]
      · have : ¬(k = p.1 ∨ k ∈ List.map Prod.fst rest) := by
          rintro (h | h)
          · exact hpk h.symm
          · exact hm h
        have hkp : ¬k = p.1 := fun hh => hpk hh.symm
        simp [List.mem_cons, hm, hkp]

theorem mem_dkeys_dinsert_self (k : String) (v : α) (d : List (String × α)) :
    k ∈ dkeys (dinsert k v d) := by
  rw [dkeys_dinsert]
  by_cases hm : k ∈ dkeys d
  · simp [hm]
  · simp [hm]

theorem dkeys_dinsert_nodup (k : String) (v : α) (d : List (String × α))
    (h : (dkeys d).Nodup) : (dkeys (dinsert k v d)).Nodup := by
  rw [dkeys_dinsert]
  by_cases hm : k ∈ dkeys d
  · simpa [hm] using h
  · simp only [hm, if_false]
    rw [List.nodup_append]
    exact ⟨h, List.nodup_singleton k, by simpa using hm⟩

theorem dget_eq_none_of_not_mem (d : List (String × α)) (k : String)
    (h : k ∉ dkeys d) : dget d k = none := by
  induction d with
  | nil => rfl
  | cons p rest ih =>
    simp only [dkeys, List.map_cons, List.mem_cons, not_or] at h
    have hp : (p.1 == k) = false := by simpa using fun hh => h.1 hh.symm
    rw [dget_cons, hp]
    · simp only [Bool.false_eq_true, if_false]
      exact ih (by simpa [dkeys] using h.2)

theorem mem_dkeys_dinsert_of_mem (k k2 : String) (v : α) (d : List (String × α))
    (h : k ∈ dkeys d) : k ∈ dkeys (dinsert k2 v d) := by
  rw [dkeys_dinsert]
  by_cases hm : k2 ∈ dkeys d <;> simp [hm, h]

/-! ### Row construction lemmas -/

theorem mkRow_dget_dim (m : List (String × ℚ)) (b : String) :
    dget (mkRow m b) "dimension" = some (Cell.dim (extract_dimension b)) := by
  unfold mkRow
  rw [dget_dinsert_ne "file" "dimension" _ _ (by decide), dget_dinsert_self]

theorem mkRow_dget_file (m : List (String × ℚ)) (b : String) :
    dget (mkRow m b) "file" = some (Cell.str b) := dget_dinsert_self _ _ _

theorem mkRow_mem_dim (m : List (String × ℚ)) (b : String) :
    "dimension" ∈ dkeys (mkRow m b) :=
  mem_dkeys_dinsert_of_mem _ _ _ _ (mem_dkeys_dinsert_self _ _ _)

theorem mkRow_mem_file (m : List (String × ℚ)) (b : String) :
    "file" ∈ dkeys (mkRow m b) := mem_dkeys_dinsert_self _ _ _

theorem mem_allKeys_of_mem_row (rows : List (List (String × Cell)))
    (row : List (String × Cell)) (k : String) (hrow : row ∈ rows)
    (hk : k ∈ dkeys row) : k ∈ allKeys rows := by
  simp only [allKeys, List.mem_flatMap]
  exact ⟨row, hrow, hk⟩

/-! ### Header lemmas -/

theorem mem_fieldnamesOf (ks : List String) (k : String) (h : k ∈ ks) :
    k ∈ fieldnamesOf ks := by
  unfold fieldnamesOf
  by_cases h1 : k = "dimension"
  · subst h1; simp [h]
  · by_cases h2 : k = "file"
    · subst h2; simp [h]
    · have hmem : k ∈ (ks.dedup).filter
          (fun k => !(k == "dimension" || k == "file")) := by
        rw [List.mem_filter]
        refine ⟨List.mem_dedup.2 h, ?_⟩
        simp [h1, h2]
      have : k ∈ List.insertionSort (· ≤ ·)
          ((ks.dedup).filter (fun k => !(k == "dimension" || k == "file"))) :=
        ((List.perm_insertionSort _ _).mem_iff).2 hmem
      simp only [List.mem_append]
      exact Or.inr this

theorem fieldnamesOf_of_both (ks : List String)
    (h1 : "dimension" ∈ ks) (h2 : "file" ∈ ks) :
    fieldnamesOf ks = "dimension" :: "file" :: List.insertionSort (· ≤ ·)
      ((ks.dedup).filter (fun k => !(k == "dimension" || k == "file"))) := by
  simp [fieldnamesOf, h1, h2]

/-! ### Claim theorems, first batch -/

/-- C7: the reserved fields are assigned to the row after parsing, so for
every parsed metric record — even one that literally contains a metric
named `dimension` or `file` — the row's `dimension` and `file` entries hold
the extracted dimension and the base file name, and both reserved keys are
present in every row. -/
theorem c7_reserved_fields_overwrite (metrics : List (String × ℚ)) (base : String) :
    dget (mkRow metrics base) "dimension" = some (Cell.dim (extract_dimension base)) ∧
    dget (mkRow metrics base) "file" = some (Cell.str base) ∧
    "dimension" ∈ dkeys (mkRow metrics base) ∧
    "file" ∈ dkeys (mkRow metrics base) :=
  ⟨mkRow_dget_dim metrics base, mkRow_dget_file metrics base,
    mkRow_mem_dim metrics base, mkRow_mem_file metrics base⟩

/-- C8: the pipeline from path list to output table is a deterministic
function of the file contents and names: two runs over file systems that
agree on every input path produce identical rows and byte-identical CSV
artifacts. -/
theorem c8_deterministic (fs₁ fs₂ : FS) (paths : List String)
    (h : ∀ p ∈ paths, fs₁ p = fs₂ p) :
    collate_metrics fs₁ paths = collate_metrics fs₂ paths ∧
    writeCSV (collate_metrics fs₁ paths) = writeCSV (collate_metrics fs₂ paths) := by
  have hrows : collate_metrics fs₁ paths = collate_metrics fs₂ paths := by
    unfold collate_metrics
    apply List.map_congr_left
    intro p hp
    have : parse_metrics_from_file fs₁ p = parse_metrics_from_file fs₂ p := by
      unfold parse_metrics_from_file
      rw [h p hp]
    rw [this]
  exact ⟨hrows, by rw [hrows]⟩

theorem c8_deterministic_witness :
    collate_metrics (fun _ => some ["a 1"]) ["f_3.txt"] =
      collate_metrics (fun p => if p ∈ ["f_3.txt"] then some ["a 1"] else none)
        ["f_3.txt"] :=
  (c8_deterministic _ _ ["f_3.txt"] (by intro p hp; simp at hp; simp [hp])).1

/-- C9: a schema column absent from a row's mapping is written as the empty
string; any metric key present in some row appears as a column of the whole
table, and the written grid is exactly the header-indexed `row.get(key, "")`
lookups. -/
theorem c9_missing_cells_empty (rows : List (List (String × Cell))) :
    (∀ row ∈ rows, ∀ k, k ∉ dkeys row → cellFor row k = Cell.str "") ∧
    (∀ name row, row ∈ rows → name ∈ dkeys row → name ∈ csvHeader rows) ∧
    (writeCSV rows).2 = rows.map (fun row => (csvHeader rows).map (cellFor row)) := by
  refine ⟨?_, ?_, rfl⟩
  · intro row _ k hk
    unfold cellFor
    rw [dget_eq_none_of_not_mem row k hk]
    rfl
  · intro name row hrow hname
    exact mem_fieldnamesOf _ _ (mem_allKeys_of_mem_row rows row name hrow hname)

theorem c9_missing_cells_empty_witness :
    cellFor [("a", Cell.num 1)] "b" = Cell.str "" ∧
    "a" ∈ csvHeader [[("a", Cell.num 1)]] := by
  have h := c9_missing_cells_empty [[("a", Cell.num 1)]]
  exact ⟨h.1 [("a", Cell.num 1)] (by simp) "b" (by decide),
    h.2.1 "a" [("a", Cell.num 1)] (by simp) (by decide)⟩

/-- C1 counterexample: on the empty input sequence the header is empty, so
it does not contain the `dimension` column (the claim asserts it always
does, including for empty input). -/
theorem c1_counterexample :
    csvHeader (collate_metrics (fun _ => none) ([] : List String)) = [] ∧
    "dimension" ∉ csvHeader (collate_metrics (fun _ => none) ([] : List String)) := by
  constructor
  · rfl
  · intro h
    rw [show csvHeader (collate_metrics (fun _ => none) ([] : List String)) = []
      from rfl] at h
    simp at h

/-- C1 amended: for every NON-EMPTY input path sequence the header contains
`dimension` and `file` (indeed as its first two columns); for the empty
sequence the header is empty — it contains no columns at all, not even the
reserved ones. -/
theorem c1_header_reserved_columns (fs : FS) (paths : List String)
    (h : paths ≠ []) :
    "dimension" ∈ csvHeader (collate_metrics fs paths) ∧
    "file" ∈ csvHeader (collate_metrics fs paths) ∧
    (csvHeader (collate_metrics fs paths)).take 2 = ["dimension", "file"] ∧
    ∀ fs2 : FS, csvHeader (collate_metrics fs2 ([] : List String)) = [] := by
  obtain ⟨p, rest, rfl⟩ := List.exists_cons_of_ne_nil h
  have hrow : mkRow (parse_metrics_from_file fs p).1 (basename p) ∈
      collate_metrics fs (p :: rest) := by
    simp [collate_metrics]
  have hdim : "dimension" ∈ allKeys (collate_metrics fs (p :: rest)) :=
    mem_allKeys_of_mem_row _ _ _ hrow (mkRow_mem_dim _ _)
  have hfile : "file" ∈ allKeys (collate_metrics fs (p :: rest)) :=
    mem_allKeys_of_mem_row _ _ _ hrow (mkRow_mem_file _ _)
  have hhdr := fieldnamesOf_of_both _ hdim hfile
  unfold csvHeader
  rw [hhdr]
  refine ⟨by simp, by simp, rfl, fun fs2 => rfl⟩

theorem c1_header_reserved_columns_witness :
    "dimension" ∈ csvHeader (collate_metrics (fun _ => none) ["x_1.txt"]) ∧
    "file" ∈ csvHeader (collate_metrics (fun _ => none) ["x_1.txt"]) :=
  ⟨(c1_header_reserved_columns (fun _ => none) ["x_1.txt"] (by decide)).1,
    (c1_header_reserved_columns (fun _ => none) ["x_1.txt"] (by decide)).2.1⟩

/-- C5: when some input path is missing, the run still yields one row per
input path in input order; the missing file's row carries only the populated
`dimension` and `file` fields, a warning naming the path is emitted on the
diagnostic channel, and every other row is computed from its own file
exactly as usual. -/
theorem c5_missing_file_tolerated (fs : FS) (paths : List String) (i : ℕ)
    (hi : i < paths.length)
    (hmiss : fs (paths.get ⟨i, hi⟩) = none) :
    (collate_metrics fs paths).length = paths.length ∧
    (collate_metrics fs paths).get ⟨i, by simpa [collate_metrics] using hi⟩ =
      [("dimension", Cell.dim (extract_dimension (basename (paths.get ⟨i, hi⟩)))),
       ("file", Cell.str (basename (paths.get ⟨i, hi⟩)))] ∧
    ("Warning: file not found: " ++ paths.get ⟨i, hi⟩) ∈ collateWarnings fs paths ∧
    ∀ (j : ℕ) (hj : j < paths.length),
      (collate_metrics fs paths).get ⟨j, by simpa [collate_metrics] using hj⟩ =
        mkRow (parse_metrics_from_file fs (paths.get ⟨j, hj⟩)).1
          (basename (paths.get ⟨j, hj⟩)) := by
  refine ⟨by simp [collate_metrics], ?_, ?_, ?_⟩
  · simp only [collate_metrics, List.get_eq_getElem, List.getElem_map]
    rw [show (paths.get ⟨i, hi⟩ : String) = paths[i] from rfl] at hmiss
    simp [parse_metrics_from_file, hmiss, mkRow, dinsert]
  · simp only [collateWarnings, List.mem_flatMap]
    refine ⟨paths.get ⟨i, hi⟩, List.get_mem paths i hi, ?_⟩
    rw [List.get_eq_getElem] at hmiss
    simp only [List.get_eq_getElem, parse_metrics_from_file, hmiss]
    simp
  · intro j hj
    simp [collate_metrics, List.get_eq_getElem, List.getElem_map]

theorem c5_missing_file_tolerated_witness :
    (collate_metrics (fun _ => none) ["softmax_N8000.txt"]).length = 1 ∧
    ("Warning: file not found: " ++ "softmax_N8000.txt")
      ∈ collateWarnings (fun _ => none) ["softmax_N8000.txt"] := by
  have h := c5_missing_file_tolerated (fun _ => none) ["softmax_N8000.txt"] 0 (by decide) rfl
  exact ⟨h.1, h.2.2.1⟩

theorem fieldnamesOf_perm_eq (ks₁ ks₂ : List String) (h : List.Perm ks₁ ks₂) :
    fieldnamesOf ks₁ = fieldnamesOf ks₂ := by
  unfold fieldnamesOf
  have e1 : (if "dimension" ∈ ks₁ then ["dimension"] else ([] : List String)) =
      (if "dimension" ∈ ks₂ then ["dimension"] else []) := by
    by_cases hd : "dimension" ∈ ks₁
    · rw [if_pos hd, if_pos (h.mem_iff.1 hd)]
    · rw [if_neg hd, if_neg (fun hh => hd (h.mem_iff.2 hh))]
  have e2 : (if "file" ∈ ks₁ then ["file"] else ([] : List String)) =
      (if "file" ∈ ks₂ then ["file"] else []) := by
    by_cases hd : "file" ∈ ks₁
    · rw [if_pos hd, if_pos (h.mem_iff.1 hd)]
    · rw [if_neg hd, if_neg (fun hh => hd (h.mem_iff.2 hh))]
  have hperm : List.Perm
      ((ks₁.dedup).filter (fun k => !(k == "dimension" || k == "file")))
      ((ks₂.dedup).filter (fun k => !(k == "dimension" || k == "file"))) :=
    (h.dedup).filter _
  have e3 : List.insertionSort (· ≤ ·)
        ((ks₁.dedup).filter (fun k => !(k == "dimension" || k == "file"))) =
      List.insertionSort (· ≤ ·)
        ((ks₂.dedup).filter (fun k => !(k == "dimension" || k == "file"))) := by
    have hs1 : List.Sorted (· ≤ ·) (List.insertionSort (· ≤ ·)
        ((ks₁.dedup).filter (fun k => !(k == "dimension" || k == "file")))) :=
      List.sorted_insertionSort _ _
    have hs2 : List.Sorted (· ≤ ·) (List.insertionSort (· ≤ ·)
        ((ks₂.dedup).filter (fun k => !(k == "dimension" || k == "file")))) :=
      List.sorted_insertionSort _ _
    exact List.eq_of_perm_of_sorted
      (((List.perm_insertionSort _ _).trans hperm).trans
        (List.perm_insertionSort _ _).symm) hs1 hs2
  rw [e1, e2, e3]

/-- C6: the header is `dimension` first (if any row defines it), then `file`
(if any row defines it), then all remaining keys sorted lexicographically,
without duplicates; and the result is invariant under any reordering of the
underlying key collection (the iteration order of the unordered
containers). -/
theorem c6_column_order (rows : List (List (String × Cell))) (ks : List String)
    (h : List.Perm (allKeys rows) ks) :
    csvHeader rows = fieldnamesOf ks ∧
    csvHeader rows =
      (if "dimension" ∈ allKeys rows then ["dimension"] else []) ++
      (if "file" ∈ allKeys rows then ["file"] else []) ++
      List.insertionSort (· ≤ ·) (((allKeys rows).dedup).filter
        (fun k => !(k == "dimension" || k == "file"))) ∧
    List.Sorted (· ≤ ·) (List.insertionSort (· ≤ ·) (((allKeys rows).dedup).filter
      (fun k => !(k == "dimension" || k == "file")))) ∧
    (List.insertionSort (· ≤ ·) (((allKeys rows).dedup).filter
      (fun k => !(k == "dimension" || k == "file")))).Nodup ∧
    ∀ a, a ∈ List.insertionSort (· ≤ ·) (((allKeys rows).dedup).filter
        (fun k => !(k == "dimension" || k == "file"))) ↔
      a ∈ allKeys rows ∧ a ≠ "dimension" ∧ a ≠ "file" := by
  refine ⟨fieldnamesOf_perm_eq _ _ h, rfl, List.sorted_insertionSort _ _, ?_, ?_⟩
  · rw [(List.perm_insertionSort _ _).nodup_iff]
    exact (List.nodup_dedup _).filter _
  · intro a
    rw [(List.perm_insertionSort _ _).mem_iff, List.mem_filter, List.mem_dedup]
    simp only [Bool.not_eq_eq_eq_not, Bool.not_true, Bool.or_eq_false_iff,
      beq_eq_false_iff_ne]

theorem c6_column_order_witness :
    csvHeader [[("b", Cell.num 1), ("a", Cell.num 2)]] =
      fieldnamesOf (allKeys [[("b", Cell.num 1), ("a", Cell.num 2)]]) :=
  (c6_column_order [[("b", Cell.num 1), ("a", Cell.num 2)]] _ (List.Perm.refl _)).1

/-! ### Last-write-wins fold lemmas -/

theorem dget_foldl_lines (lines : List String) (d : List (String × ℚ)) (name : String) :
    dget (lines.foldl (fun d line =>
        match processLine line.data with
        | some (n, v) => dinsert (String.mk n) v d
        | none => d) d) name =
      ((((producedPairs lines).reverse.find? (fun p => p.1 == name)).map
        Prod.snd).or (dget d name)) := by
  induction lines generalizing d with
  | nil => simp [producedPairs]
  | cons l rest ih =>
    simp only [List.foldl_cons, producedPairs, List.filterMap_cons]
    cases hpl : processLine l.data with
    | none =>
      simpa [producedPairs] using ih d
    | some p =>
      obtain ⟨n, v⟩ := p
      simp only [Option.map_some']
      rw [show (rest.foldl (fun d line =>
          match processLine line.data with
          | some (n, v) => dinsert (String.mk n) v d
          | none => d) (dinsert (String.mk n) v d)) =
        (rest.foldl (fun d line =>
          match processLine line.data with
          | some (n, v) => dinsert (String.mk n) v d
          | none => d) (dinsert (String.mk n) v d)) from rfl]
      rw [ih (dinsert (String.mk n) v d)]
      rw [List.reverse_cons, List.find?_append]
      cases hfind : (List.filterMap (fun l =>
          (processLine l.data).map (fun p => (String.mk p.1, p.2)))
          rest).reverse.find? (fun p => p.1 == name) with
      | some q =>
        simp only [producedPairs] at hfind ⊢
        rw [hfind]
        rfl
      | none =>
        simp only [producedPairs] at hfind ⊢
        rw [hfind]
        by_cases hn : String.mk n = name
        · subst hn
          rw [dget_dinsert_self]
          simp [List.find?]
        · rw [dget_dinsert_ne _ _ _ _ hn]
          have hb : (String.mk n == name) = false := by simpa using hn
          simp [List.find?, hb]

theorem foldl_lines_keys_nodup (lines : List String) (d : List (String × ℚ))
    (h : (dkeys d).Nodup) :
    (dkeys (lines.foldl (fun d line =>
        match processLine line.data with
        | some (n, v) => dinsert (String.mk n) v d
        | none => d) d)).Nodup := by
  induction lines generalizing d with
  | nil => simpa using h
  | cons l rest ih =>
    simp only [List.foldl_cons]
    cases hpl : processLine l.data with
    | none => exact ih d h
    | some p => exact ih _ (dkeys_dinsert_nodup _ _ _ h)

/-- C4: within one file, repeated metric names keep only the value from the
last producing line (plain overwrite: the recorded value is the value of the
last produced pair with that name, whatever earlier lines produced), and the
resulting record's keys are unique. -/
theorem c4_last_write_wins (fs : FS) (path : String) (lines : List String)
    (name : String) (h : fs path = some lines) :
    dget (parse_metrics_from_file fs path).1 name =
      ((producedPairs lines).reverse.find? (fun p => p.1 == name)).map Prod.snd ∧
    (dkeys (parse_metrics_from_file fs path).1).Nodup := by
  unfold parse_metrics_from_file
  rw [h]
  constructor
  · show dget (foldLines lines) name = _
    unfold foldLines
    rw [dget_foldl_lines]
    rw [show dget ([] : List (String × ℚ)) name = none from rfl]
    cases ((producedPairs lines).reverse.find? (fun p => p.1 == name)) <;> rfl
  · exact foldl_lines_keys_nodup lines [] (by simp [dkeys])

theorem c4_last_write_wins_witness :
    dget (parse_metrics_from_file (fun _ => some ["a 1", "a 2"]) "f.txt").1 "a" =
      some 2 := by
  have h := c4_last_write_wins (fun _ => some ["a 1", "a 2"]) "f.txt"
    ["a 1", "a 2"] "a" rfl
  rw [h.1]
  simp [producedPairs, processLine, pyStrip, cleanLine, splitWs, runsBy, searchNum,
    matchNumAt, matchCore, matchFrac, matchExp, floatOfChars, floatExp, natOfDigits,
    isDigitComma, isSignChar, List.find?]

/-! ### Digit-run lemmas for `extract_dimension` -/

theorem takeWhile_append_of_all (p : Char → Bool) (a b : List Char)
    (h : ∀ c ∈ a, p c = true) :
    (a ++ b).takeWhile p = a ++ b.takeWhile p := by
  induction a with
  | nil => simp
  | cons x a' ih =>
    have hx : p x = true := h x (List.mem_cons_self x a')
    simp only [List.cons_append, List.takeWhile_cons, hx, if_true, List.cons_inj_right]
    exact ih (fun c hc => h c (List.mem_cons_of_mem x hc))

theorem dropWhile_append_of_all (p : Char → Bool) (a b : List Char)
    (h : ∀ c ∈ a, p c = true) :
    (a ++ b).dropWhile p = b.dropWhile p := by
  induction a with
  | nil => simp
  | cons x a' ih =>
    have hx : p x = true := h x (List.mem_cons_self x a')
    simp only [List.cons_append, List.dropWhile_cons, hx, if_true]
    exact ih (fun c hc => h c (List.mem_cons_of_mem x hc))

theorem takeWhile_eq_nil_of_all_neg (p : Char → Bool) (b : List Char)
    (h : ∀ c ∈ b, p c = false) : b.takeWhile p = [] := by
  cases b with
  | nil => rfl
  | cons x b' =>
    have hx : p x = false := h x (List.mem_cons_self x b')
    simp [List.takeWhile_cons, hx]

theorem dropWhile_eq_self_of_all_neg (p : Char → Bool) (b : List Char)
    (h : ∀ c ∈ b, p c = false) : b.dropWhile p = b := by
  cases b with
  | nil => rfl
  | cons x b' =>
    have hx : p x = false := h x (List.mem_cons_self x b')
    simp [List.dropWhile_cons, hx]

theorem takeWhile_append_of_exists (p : Char → Bool) (a b : List Char)
    (h : ∃ u ∈ a, p u = false) :
    (a ++ b).takeWhile p = a.takeWhile p := by
  induction a with
  | nil => simp at h
  | cons x a' ih =>
    by_cases hx : p x = true
    · obtain ⟨u, hu, hup⟩ := h
      rcases List.mem_cons.1 hu with rfl | hu'
      · rw [hx] at hup; cases hup
      · simp only [List.cons_append, List.takeWhile_cons, hx, if_true,
          List.cons_inj_right]
        exact ih ⟨u, hu', hup⟩
    · simp only [Bool.not_eq_true] at hx
      simp [List.takeWhile_cons, hx]

theorem dropWhile_append_of_exists (p : Char → Bool) (a b : List Char)
    (h : ∃ u ∈ a, p u = false) :
    (a ++ b).dropWhile p = a.dropWhile p ++ b := by
  induction a with
  | nil => simp at h
  | cons x a' ih =>
    by_cases hx : p x = true
    · obtain ⟨u, hu, hup⟩ := h
      rcases List.mem_cons.1 hu with rfl | hu'
      · rw [hx] at hup; cases hup
      · simp only [List.cons_append, List.dropWhile_cons, hx, if_true]
        exact ih ⟨u, hu', hup⟩
    · simp only [Bool.not_eq_true] at hx
      simp [List.dropWhile_cons, hx]

theorem runsBy_nil_of_all_neg (p : Char → Bool) (l : List Char)
    (h : ∀ c ∈ l, p c = false) : runsBy p l = [] := by
  induction l with
  | nil => rfl
  | cons c cs ih =>
    rw [runsBy_cons, if_neg (by simp [h c (List.mem_cons_self c cs)])]
    exact ih (fun u hu => h u (List.mem_cons_of_mem c hu))

theorem runsBy_sep (p : Char → Bool) (c : Char) (hc : p c = false) :
    ∀ (xs ys : List Char), runsBy p (xs ++ c :: ys) = runsBy p xs ++ runsBy p ys
  | [], ys => by
    rw [List.nil_append, runsBy_cons, if_neg (by simp [hc])]
    rfl
  | x :: xs', ys => by
    by_cases hx : p x = true
    · rw [List.cons_append, runsBy_cons, if_pos hx, runsBy_cons, if_pos hx]
      by_cases hall : ∀ a ∈ xs', p a = true
      · rw [takeWhile_append_of_all p xs' (c :: ys) hall,
          dropWhile_append_of_all p xs' (c :: ys) hall]
        rw [show (c :: ys).takeWhile p = [] from by simp [List.takeWhile_cons, hc],
          show (c :: ys).dropWhile p = c :: ys from by simp [List.dropWhile_cons, hc]]
        rw [runsBy_cons, if_neg (by simp [hc])]
        rw [show xs'.takeWhile p = xs' from List.takeWhile_eq_self_iff.2 hall,
          show xs'.dropWhile p = [] from List.dropWhile_eq_nil_iff.2 hall]
        simp [runsBy]
      · have hex : ∃ u ∈ xs', p u = false := by
          push_neg at hall
          obtain ⟨u, hu, hup⟩ := hall
          exact ⟨u, hu, by simpa using hup⟩
        rw [takeWhile_append_of_exists p xs' (c :: ys) hex,
          dropWhile_append_of_exists p xs' (c :: ys) hex]
        rw [runsBy_sep p c hc (xs'.dropWhile p) ys]
        simp
    · rw [List.cons_append, runsBy_cons, if_neg hx, runsBy_cons, if_neg hx]
      exact runsBy_sep p c hc xs' ys
termination_by xs _ => xs.length
decreasing_by
  · simp only [List.length_cons]
    exact Nat.lt_succ_of_le (dropWhile_length_le p xs')
  · simp

theorem runsBy_single (p : Char → Bool) (run post : List Char)
    (hrun : run ≠ []) (hall : ∀ c ∈ run, p c = true)
    (hpost : ∀ c ∈ post, p c = false) :
    runsBy p (run ++ post) = [run] := by
  obtain ⟨r0, rs, rfl⟩ := List.exists_cons_of_ne_nil hrun
  rw [List.cons_append, runsBy_cons,
    if_pos (hall r0 (List.mem_cons_self r0 rs))]
  have hrs : ∀ c ∈ rs, p c = true := fun c hc => hall c (List.mem_cons_of_mem r0 hc)
  rw [takeWhile_append_of_all p rs post hrs, dropWhile_append_of_all p rs post hrs]
  rw [takeWhile_eq_nil_of_all_neg p post hpost, dropWhile_eq_self_of_all_neg p post hpost]
  rw [runsBy_nil_of_all_neg p post hpost]
  simp

/-- C2: `extract_dimension` returns the integer value of the LAST maximal run
of decimal digits of the file name (any decomposition `pre ++ run ++ post`
with `run` a nonempty digit run, nothing but non-digits after it, and `pre`
not ending in a digit, is that last maximal run), and returns `none` for
names containing no digit at all. -/
theorem c2_extract_dimension (s : String) :
    ((∀ c ∈ s.data, c.isDigit = false) → extract_dimension s = none) ∧
    (∀ pre run post, s.data = pre ++ run ++ post → run ≠ [] →
      (∀ c ∈ run, c.isDigit = true) → (∀ c ∈ post, c.isDigit = false) →
      (pre = [] ∨ ∃ l c, pre = l ++ [c] ∧ c.isDigit = false) →
      extract_dimension s = some (natOfDigits run)) := by
  constructor
  · intro h
    unfold extract_dimension digitRuns
    rw [runsBy_nil_of_all_neg Char.isDigit s.data h]
    rfl
  · intro pre run post hdecomp hrun hall hpost hpre
    unfold extract_dimension digitRuns
    rw [hdecomp]
    rcases hpre with rfl | ⟨l, c, rfl, hcd⟩
    · rw [List.nil_append, runsBy_single Char.isDigit run post hrun hall hpost]
      rfl
    · rw [show l ++ [c] ++ run ++ post = l ++ (c :: (run ++ post)) from by simp]
      rw [runsBy_sep Char.isDigit c hcd l (run ++ post)]
      rw [runsBy_single Char.isDigit run post hrun hall hpost]
      rw [List.getLast?_concat]
      rfl

theorem c2_extract_dimension_witness :
    extract_dimension "softmax_N8000.txt" = some 8000 ∧
    extract_dimension "nodigits.txt" = none := by
  constructor
  · have h := (c2_extract_dimension "softmax_N8000.txt").2
      "softmax_N".data "8000".data ".txt".data (by decide) (by decide)
      (by decide) (by decide)
      (Or.inr ⟨"softmax_".data, 'N', by decide, by decide⟩)
    exact h.trans (by decide)
  · exact (c2_extract_dimension "nodigits.txt").1 (by decide)

/-! ### Character-class lemmas -/

theorem sign_eq (c : Char) (h : isSignChar c = true) : c = '-' ∨ c = '+' := by
  simpa [isSignChar] using h

theorem sign_not_digit (c : Char) (h : isSignChar c = true) : c.isDigit = false := by
  rcases sign_eq c h with rfl | rfl <;> decide

theorem digit_not_sign (c : Char) (h : c.isDigit = true) : isSignChar c = false := by
  cases hs : isSignChar c
  · rfl
  · rw [sign_not_digit c hs] at h
    cases h

theorem expHead_eq (e : Char) (h : (e == 'e' || e == 'E') = true) :
    e = 'e' ∨ e = 'E' := by
  simpa using h

theorem expHead_not_digit (e : Char) (h : e = 'e' ∨ e = 'E') : e.isDigit = false := by
  rcases h with rfl | rfl <;> decide

theorem expHead_not_digitComma (e : Char) (h : e = 'e' ∨ e = 'E') :
    isDigitComma e = false := by
  rcases h with rfl | rfl <;> decide

theorem expHead_ne_dot (e : Char) (h : e = 'e' ∨ e = 'E') : e ≠ '.' := by
  rcases h with rfl | rfl <;> decide

theorem digit_isDigitComma (c : Char) (h : c.isDigit = true) :
    isDigitComma c = true := by
  simp [isDigitComma, h]

theorem digit_ne_dot (c : Char) (h : c.isDigit = true) : c ≠ '.' := by
  intro hh
  subst hh
  cases h

/-! ### Soundness of the matcher against the spec-side pattern -/

theorem matchExp_spec (cs : List Char) :
    IsExpPart (matchExp cs) ∧ ∃ r, cs = matchExp cs ++ r := by
  cases cs with
  | nil => exact ⟨Or.inl rfl, ⟨[], rfl⟩⟩
  | cons e rest =>
    by_cases he : (e == 'e' || e == 'E') = true
    · cases rest with
      | nil =>
        rw [show matchExp [e] = [] from by simp [matchExp, he]]
        exact ⟨Or.inl rfl, ⟨[e], rfl⟩⟩
      | cons d tl0 =>
        by_cases hd : d.isDigit = true
        · rw [show matchExp (e :: d :: tl0) = e :: (d :: tl0).takeWhile Char.isDigit
            from by simp [matchExp, he, hd]]
          constructor
          · refine Or.inr ⟨e, [], (d :: tl0).takeWhile Char.isDigit, by simp,
              expHead_eq e he, Or.inl rfl, ?_, ?_⟩
            · simp [List.takeWhile_cons, hd]
            · intro c hc
              exact List.mem_takeWhile_imp hc
          · refine ⟨(d :: tl0).dropWhile Char.isDigit, ?_⟩
            simp [List.takeWhile_append_dropWhile]
        · cases tl0 with
          | nil =>
            rw [show matchExp (e :: [d]) = [] from by simp [matchExp, he, hd]]
            exact ⟨Or.inl rfl, ⟨e :: [d], rfl⟩⟩
          | cons d2 tl =>
            by_cases hsd : (isSignChar d && d2.isDigit) = true
            · rw [show matchExp (e :: d :: d2 :: tl) =
                  e :: d :: (d2 :: tl).takeWhile Char.isDigit
                from by simp [matchExp, he, hd, hsd]]
              have hds : isSignChar d = true ∧ d2.isDigit = true := by
                simpa using hsd
              constructor
              · refine Or.inr ⟨e, [d], (d2 :: tl).takeWhile Char.isDigit, by simp,
                  expHead_eq e he, ?_, ?_, ?_⟩
                · rcases sign_eq d hds.1 with rfl | rfl
                  · exact Or.inr (Or.inl rfl)
                  · exact Or.inr (Or.inr rfl)
                · simp [List.takeWhile_cons, hds.2]
                · intro c hc
                  exact List.mem_takeWhile_imp hc
              · refine ⟨(d2 :: tl).dropWhile Char.isDigit, ?_⟩
                simp [List.takeWhile_append_dropWhile]
            · rw [show matchExp (e :: d :: d2 :: tl) = [] from
                by simp [matchExp, he, hd, hsd]]
              exact ⟨Or.inl rfl, ⟨e :: d :: d2 :: tl, rfl⟩⟩
    · rw [show matchExp (e :: rest) = [] from by simp [matchExp, he]]
      exact ⟨Or.inl rfl, ⟨e :: rest, rfl⟩⟩

theorem matchFrac_spec (cs : List Char) :
    (∃ dot frac ex, matchFrac cs = dot ++ frac ++ ex ∧ (dot = [] ∨ dot = ['.']) ∧
      (∀ c ∈ frac, c.isDigit = true) ∧ IsExpPart ex) ∧
    ∃ r, cs = matchFrac cs ++ r := by
  cases cs with
  | nil => exact ⟨⟨[], [], [], rfl, Or.inl rfl, by simp, Or.inl rfl⟩, ⟨[], rfl⟩⟩
  | cons c rest =>
    by_cases hc : c = '.'
    · subst hc
      rw [show matchFrac ('.' :: rest) =
          '.' :: (rest.takeWhile Char.isDigit ++ matchExp (rest.dropWhile Char.isDigit))
        from by simp [matchFrac]]
      obtain ⟨hexp, r, hr⟩ := matchExp_spec (rest.dropWhile Char.isDigit)
      constructor
      · exact ⟨['.'], rest.takeWhile Char.isDigit,
          matchExp (rest.dropWhile Char.isDigit), by simp, Or.inr rfl,
          fun u hu => List.mem_takeWhile_imp hu, hexp⟩
      · refine ⟨r, ?_⟩
        have hsplit : rest.takeWhile Char.isDigit ++ rest.dropWhile Char.isDigit =
            rest := List.takeWhile_append_dropWhile Char.isDigit rest
        have hgoal : ('.' :: (rest.takeWhile Char.isDigit ++
            matchExp (rest.dropWhile Char.isDigit))) ++ r = '.' :: rest := by
          rw [List.cons_append, List.append_assoc, ← hr, hsplit]
        exact hgoal.symm
    · rw [show matchFrac (c :: rest) = (c :: rest).takeWhile Char.isDigit ++
          matchExp ((c :: rest).dropWhile Char.isDigit)
        from by simp [matchFrac, hc]]
      obtain ⟨hexp, r, hr⟩ := matchExp_spec ((c :: rest).dropWhile Char.isDigit)
      constructor
      · exact ⟨[], (c :: rest).takeWhile Char.isDigit,
          matchExp ((c :: rest).dropWhile Char.isDigit), by simp, Or.inl rfl,
          fun u hu => List.mem_takeWhile_imp hu, hexp⟩
      · refine ⟨r, ?_⟩
        have hsplit : (c :: rest).takeWhile Char.isDigit ++
            (c :: rest).dropWhile Char.isDigit = c :: rest :=
          List.takeWhile_append_dropWhile Char.isDigit (c :: rest)
        have hgoal : ((c :: rest).takeWhile Char.isDigit ++
            matchExp ((c :: rest).dropWhile Char.isDigit)) ++ r = c :: rest := by
          rw [List.append_assoc, ← hr, hsplit]
        exact hgoal.symm

theorem matchCore_sound (cs m : List Char) (h : matchCore cs = some m) :
    IsCoreTok m ∧ ∃ rest, cs = m ++ rest := by
  cases cs with
  | nil => cases h
  | cons d rest =>
    by_cases hd : d.isDigit = true
    · rw [show matchCore (d :: rest) = some (d :: (rest.takeWhile isDigitComma ++
          matchFrac (rest.dropWhile isDigitComma)))
        from by simp [matchCore, hd]] at h
      have hm : m = d :: (rest.takeWhile isDigitComma ++
          matchFrac (rest.dropWhile isDigitComma)) := by
        exact (Option.some_inj.1 h).symm
      subst hm
      obtain ⟨⟨dot, frac, ex, hfr, hdot, hfrac, hexp⟩, r, hr⟩ :=
        matchFrac_spec (rest.dropWhile isDigitComma)
      constructor
      · refine ⟨d, rest.takeWhile isDigitComma, dot, frac, ex, ?_, hd,
          fun u hu => List.mem_takeWhile_imp hu, hdot, hfrac, hexp⟩
        rw [hfr]
        simp
      · refine ⟨r, ?_⟩
        have hsplit : rest.takeWhile isDigitComma ++ rest.dropWhile isDigitComma =
            rest := List.takeWhile_append_dropWhile isDigitComma rest
        have hgoal : (d :: (rest.takeWhile isDigitComma ++
            matchFrac (rest.dropWhile isDigitComma))) ++ r = d :: rest := by
          rw [List.cons_append, List.append_assoc, ← hr, hsplit]
        exact hgoal.symm
    · rw [show matchCore (d :: rest) = none from by simp [matchCore, hd]] at h
      cases h

theorem matchNumAt_sound (cs m : List Char) (h : matchNumAt cs = some m) :
    IsNumToken m ∧ ∃ rest, cs = m ++ rest := by
  cases cs with
  | nil => cases h
  | cons c rest =>
    by_cases hs : isSignChar c = true
    · rw [show matchNumAt (c :: rest) = (matchCore rest).map (fun m => c :: m)
        from by simp [matchNumAt, hs]] at h
      cases hm : matchCore rest with
      | none => rw [hm] at h; cases h
      | some m0 =>
        rw [hm] at h
        have hmm : m = c :: m0 := by simpa using h.symm
        subst hmm
        obtain ⟨hcore, rest', hr⟩ := matchCore_sound rest m0 hm
        constructor
        · refine ⟨[c], m0, ?_, hcore, rfl⟩
          rcases sign_eq c hs with rfl | rfl
          · exact Or.inr (Or.inl rfl)
          · exact Or.inr (Or.inr rfl)
        · exact ⟨rest', by rw [hr]; rfl⟩
    · rw [show matchNumAt (c :: rest) = matchCore (c :: rest)
        from by simp [matchNumAt, hs]] at h
      obtain ⟨hcore, rest', hr⟩ := matchCore_sound _ _ h
      exact ⟨⟨[], m, Or.inl rfl, hcore, by simp⟩, rest', hr⟩

theorem matchNumAt_isSome_of_token (cs m rest : List Char) (hd : cs = m ++ rest)
    (ht : IsNumToken m) : (matchNumAt cs).isSome = true := by
  obtain ⟨sgn, m0, hsgn, ⟨d, run, dot, frac, ex, hm0, hdd, _, _, _, _⟩, rfl⟩ := ht
  subst hm0
  rcases hsgn with rfl | rfl | rfl
  · subst hd
    rw [show ([] : List Char) ++ ((d :: run) ++ dot ++ frac ++ ex) ++ rest =
      d :: (run ++ dot ++ frac ++ ex ++ rest) from by simp]
    simp [matchNumAt, digit_not_sign d hdd, matchCore, hdd]
  · subst hd
    rw [show (['-'] ++ ((d :: run) ++ dot ++ frac ++ ex)) ++ rest =
      '-' :: (d :: (run ++ dot ++ frac ++ ex ++ rest)) from by simp]
    simp [matchNumAt, isSignChar, matchCore, hdd]
  · subst hd
    rw [show (['+'] ++ ((d :: run) ++ dot ++ frac ++ ex)) ++ rest =
      '+' :: (d :: (run ++ dot ++ frac ++ ex ++ rest)) from by simp]
    simp [matchNumAt, isSignChar, matchCore, hdd]

theorem searchNum_some (cs m : List Char) (h : searchNum cs = some m) :
    ∃ i, matchNumAt (cs.drop i) = some m ∧
      ∀ j < i, matchNumAt (cs.drop j) = none := by
  induction cs with
  | nil => cases h
  | cons c rest ih =>
    rw [searchNum] at h
    cases hm : matchNumAt (c :: rest) with
    | some m' =>
      rw [hm] at h
      have : m' = m := by simpa using h
      subst this
      exact ⟨0, by simpa using hm, fun j hj => absurd hj (Nat.not_lt_zero j)⟩
    | none =>
      rw [hm] at h
      obtain ⟨i, hi, hj⟩ := ih h
      refine ⟨i + 1, by simpa using hi, ?_⟩
      intro j hjlt
      cases j with
      | zero => simpa using hm
      | succ j' =>
        simpa using hj j' (Nat.lt_of_succ_lt_succ hjlt)

theorem searchNum_none (cs : List Char) (h : searchNum cs = none) :
    ∀ i, matchNumAt (cs.drop i) = none := by
  induction cs with
  | nil => intro i; simp [matchNumAt]
  | cons c rest ih =>
    rw [searchNum] at h
    cases hm : matchNumAt (c :: rest) with
    | some m' => rw [hm] at h; cases h
    | none =>
      rw [hm] at h
      intro i
      cases i with
      | zero => simpa using hm
      | succ i' => simpa using ih h i'

/-! ### Greedy maximality of the matcher -/

theorem expHead_beq (e : Char) (h : e = 'e' ∨ e = 'E') :
    (e == 'e' || e == 'E') = true := by
  rcases h with rfl | rfl <;> decide

theorem matchExp_maximal (ex tail : List Char) (h : IsExpPart ex) :
    ex.length ≤ (matchExp (ex ++ tail)).length := by
  rcases h with rfl | ⟨e, sgn, ds, rfl, he, hsgn, hds, hdig⟩
  · simp
  · obtain ⟨d0, ds', rfl⟩ := List.exists_cons_of_ne_nil hds
    have hd0 : d0.isDigit = true := hdig d0 (by simp)
    have hds' : ∀ c ∈ ds', c.isDigit = true :=
      fun c hc => hdig c (by simp [hc])
    rcases hsgn with rfl | rfl | rfl
    · rw [show (e :: ([] ++ (d0 :: ds'))) ++ tail = e :: (d0 :: (ds' ++ tail))
        from by simp]
      rw [show matchExp (e :: (d0 :: (ds' ++ tail))) =
          e :: (d0 :: (ds' ++ tail)).takeWhile Char.isDigit
        from by simp [matchExp, expHead_beq e he, hd0]]
      rw [List.takeWhile_cons, if_pos hd0,
        takeWhile_append_of_all Char.isDigit ds' tail hds']
      simp [List.length_append]
    · rw [show (e :: (['-'] ++ (d0 :: ds'))) ++ tail =
        e :: '-' :: (d0 :: (ds' ++ tail)) from by simp]
      rw [show matchExp (e :: '-' :: (d0 :: (ds' ++ tail))) =
          e :: '-' :: (d0 :: (ds' ++ tail)).takeWhile Char.isDigit
        from by simp [matchExp, expHead_beq e he, hd0, isSignChar]]
      rw [List.takeWhile_cons, if_pos hd0,
        takeWhile_append_of_all Char.isDigit ds' tail hds']
      simp [List.length_append]
    · rw [show (e :: (['+'] ++ (d0 :: ds'))) ++ tail =
        e :: '+' :: (d0 :: (ds' ++ tail)) from by simp]
      rw [show matchExp (e :: '+' :: (d0 :: (ds' ++ tail))) =
          e :: '+' :: (d0 :: (ds' ++ tail)).takeWhile Char.isDigit
        from by simp [matchExp, expHead_beq e he, hd0, isSignChar]]
      rw [List.takeWhile_cons, if_pos hd0,
        takeWhile_append_of_all Char.isDigit ds' tail hds']
      simp [List.length_append]

theorem frac_exp_bound (frac ex tail : List Char)
    (hfrac : ∀ c ∈ frac, c.isDigit = true) (hexp : IsExpPart ex) :
    frac.length + ex.length ≤
      ((frac ++ ex ++ tail).takeWhile Char.isDigit).length +
      (matchExp ((frac ++ ex ++ tail).dropWhile Char.isDigit)).length := by
  rcases hexp with rfl | ⟨e, sgn, ds, hex, he, hsgn, hds, hdig⟩
  · rw [show frac ++ [] ++ tail = frac ++ tail from by simp]
    rw [takeWhile_append_of_all Char.isDigit frac tail hfrac]
    simp only [List.length_append, List.length_nil, Nat.add_zero]
    omega
  · have hexstruct : IsExpPart ex := Or.inr ⟨e, sgn, ds, hex, he, hsgn, hds, hdig⟩
    have hmax := matchExp_maximal ex tail hexstruct
    subst hex
    have hnd : e.isDigit = false := expHead_not_digit e he
    rw [show frac ++ (e :: (sgn ++ ds)) ++ tail = frac ++ (e :: (sgn ++ ds ++ tail))
      from by simp] at *
    rw [takeWhile_append_of_all Char.isDigit frac _ hfrac,
      dropWhile_append_of_all Char.isDigit frac _ hfrac]
    rw [List.takeWhile_cons, List.dropWhile_cons, hnd]
    simp only [Bool.false_eq_true, if_false]
    rw [show (e :: (sgn ++ ds)) ++ tail = e :: (sgn ++ ds ++ tail) from by simp] at hmax
    simp only [List.length_append, List.length_cons] at hmax ⊢
    omega

theorem matchFrac_maximal (dot frac ex tail : List Char)
    (hdot : dot = [] ∨ dot = ['.'])
    (hfrac : ∀ c ∈ frac, c.isDigit = true) (hexp : IsExpPart ex) :
    (dot ++ frac ++ ex).length ≤ (matchFrac (dot ++ frac ++ ex ++ tail)).length := by
  rcases hdot with rfl | rfl
  · cases frac with
    | cons f0 fr =>
      have hf0 : f0.isDigit = true := hfrac f0 (by simp)
      have hne : f0 ≠ '.' := digit_ne_dot f0 hf0
      rw [show (([] : List Char) ++ (f0 :: fr) ++ ex) ++ tail =
        f0 :: (fr ++ (ex ++ tail)) from by simp]
      rw [show matchFrac (f0 :: (fr ++ (ex ++ tail))) =
          (f0 :: (fr ++ (ex ++ tail))).takeWhile Char.isDigit ++
            matchExp ((f0 :: (fr ++ (ex ++ tail))).dropWhile Char.isDigit)
        from by simp [matchFrac, hne]]
      have hb := frac_exp_bound (f0 :: fr) ex tail hfrac hexp
      rw [show ((f0 :: fr) ++ ex) ++ tail = f0 :: (fr ++ (ex ++ tail))
        from by simp] at hb
      simp only [List.length_append, List.length_cons, List.length_nil,
        List.nil_append] at hb ⊢
      omega
    | nil =>
      rcases hexp with rfl | ⟨e, sgn, ds, rfl, he, hsgn, hds, hdig⟩
      · simp
      · have hne : e ≠ '.' := expHead_ne_dot e he
        rw [show (([] : List Char) ++ [] ++ (e :: (sgn ++ ds))) ++ tail =
          e :: (sgn ++ (ds ++ tail)) from by simp]
        rw [show matchFrac (e :: (sgn ++ (ds ++ tail))) =
            (e :: (sgn ++ (ds ++ tail))).takeWhile Char.isDigit ++
              matchExp ((e :: (sgn ++ (ds ++ tail))).dropWhile Char.isDigit)
          from by simp [matchFrac, hne]]
        have hb := frac_exp_bound [] (e :: (sgn ++ ds)) tail (by simp)
          (Or.inr ⟨e, sgn, ds, rfl, he, hsgn, hds, hdig⟩)
        rw [show (([] : List Char) ++ (e :: (sgn ++ ds))) ++ tail =
          e :: (sgn ++ (ds ++ tail)) from by simp] at hb
        simp only [List.length_append, List.length_cons, List.length_nil,
          List.nil_append] at hb ⊢
        omega
  · rw [show ((['.'] ++ frac ++ ex) ++ tail : List Char) =
      '.' :: (frac ++ (ex ++ tail)) from by simp]
    rw [show matchFrac ('.' :: (frac ++ (ex ++ tail))) =
        '.' :: ((frac ++ (ex ++ tail)).takeWhile Char.isDigit ++
          matchExp ((frac ++ (ex ++ tail)).dropWhile Char.isDigit))
      from by simp [matchFrac]]
    have hb := frac_exp_bound frac ex tail hfrac hexp
    rw [show (frac ++ ex) ++ tail = frac ++ (ex ++ tail) from by simp] at hb
    simp only [List.length_append, List.length_cons, List.length_nil,
      List.nil_append] at hb ⊢
    omega

theorem dot_not_digitComma : isDigitComma '.' = false := by decide

theorem matchCore_maximal (cs m m' rest' : List Char) (h : matchCore cs = some m)
    (hd : cs = m' ++ rest') (ht : IsCoreTok m') : m'.length ≤ m.length := by
  obtain ⟨d, run, dot, frac, ex, rfl, hdd, hrun, hdot, hfrac, hexp⟩ := ht
  subst hd
  have hfracdc : ∀ c ∈ frac, isDigitComma c = true :=
    fun c hc => digit_isDigitComma c (hfrac c hc)
  rw [show ((d :: run) ++ dot ++ frac ++ ex) ++ rest' =
    d :: (run ++ (dot ++ (frac ++ (ex ++ rest')))) from by simp] at h
  rw [show matchCore (d :: (run ++ (dot ++ (frac ++ (ex ++ rest'))))) =
      some (d :: ((run ++ (dot ++ (frac ++ (ex ++ rest')))).takeWhile isDigitComma ++
        matchFrac ((run ++ (dot ++ (frac ++ (ex ++ rest')))).dropWhile isDigitComma)))
    from by simp [matchCore, hdd]] at h
  have hm : m = d :: ((run ++ (dot ++ (frac ++ (ex ++ rest')))).takeWhile isDigitComma ++
      matchFrac ((run ++ (dot ++ (frac ++ (ex ++ rest')))).dropWhile isDigitComma)) :=
    (Option.some_inj.1 h).symm
  subst hm
  rw [takeWhile_append_of_all isDigitComma run _ hrun,
    dropWhile_append_of_all isDigitComma run _ hrun]
  rcases hdot with rfl | rfl
  · rw [show ([] : List Char) ++ (frac ++ (ex ++ rest')) = frac ++ (ex ++ rest')
      from by simp]
    rw [takeWhile_append_of_all isDigitComma frac _ hfracdc,
      dropWhile_append_of_all isDigitComma frac _ hfracdc]
    rcases hexp with rfl | ⟨e, sgn, ds, rfl, he, hsgn, hds, hdig⟩
    · simp only [List.nil_append, List.length_append, List.length_cons,
        List.length_nil]
      omega
    · have hedc : isDigitComma e = false := expHead_not_digitComma e he
      rw [show (e :: (sgn ++ ds)) ++ rest' = e :: (sgn ++ (ds ++ rest'))
        from by simp]
      rw [List.takeWhile_cons, List.dropWhile_cons, hedc]
      simp only [Bool.false_eq_true, if_false]
      have hb := matchFrac_maximal [] [] (e :: (sgn ++ ds)) rest' (Or.inl rfl)
        (by simp) (Or.inr ⟨e, sgn, ds, rfl, he, hsgn, hds, hdig⟩)
      rw [show (([] : List Char) ++ [] ++ (e :: (sgn ++ ds))) ++ rest' =
        e :: (sgn ++ (ds ++ rest')) from by simp] at hb
      simp only [List.length_append, List.length_cons, List.length_nil,
        List.nil_append] at hb ⊢
      omega
  · rw [show (['.'] : List Char) ++ (frac ++ (ex ++ rest')) =
      '.' :: (frac ++ (ex ++ rest')) from by simp]
    rw [List.takeWhile_cons, List.dropWhile_cons, dot_not_digitComma]
    simp only [Bool.false_eq_true, if_false]
    have hb := matchFrac_maximal ['.'] frac ex rest' (Or.inr rfl) hfrac hexp
    rw [show ((['.'] : List Char) ++ frac ++ ex) ++ rest' =
      '.' :: (frac ++ (ex ++ rest')) from by simp] at hb
    simp only [List.length_append, List.length_cons, List.length_nil,
      List.nil_append] at hb ⊢
    omega

theorem matchNumAt_maximal (cs m m' rest' : List Char)
    (h : matchNumAt cs = some m) (hd : cs = m' ++ rest') (ht : IsNumToken m') :
    m'.length ≤ m.length := by
  obtain ⟨sgn, m0, hsgn, hcore, rfl⟩ := ht
  obtain ⟨d, run, dot, frac, ex, hm0, hdd, hrun, hdot, hfrac, hexp⟩ := hcore
  have hct : IsCoreTok m0 := ⟨d, run, dot, frac, ex, hm0, hdd, hrun, hdot, hfrac, hexp⟩
  have hcons : m0 ++ rest' = d :: (run ++ dot ++ frac ++ ex ++ rest') := by
    rw [hm0]; simp
  rcases hsgn with rfl | rfl | rfl
  · subst hd
    rw [show (([] : List Char) ++ m0) ++ rest' = m0 ++ rest' from by simp] at h
    rw [hcons] at h
    have hns : isSignChar d = false := digit_not_sign d hdd
    rw [show matchNumAt (d :: (run ++ dot ++ frac ++ ex ++ rest')) =
        matchCore (d :: (run ++ dot ++ frac ++ ex ++ rest'))
      from by simp [matchNumAt, hns]] at h
    have hres := matchCore_maximal _ m m0 rest' h hcons.symm hct
    simpa using hres
  · subst hd
    rw [show ((['-'] : List Char) ++ m0) ++ rest' = '-' :: (m0 ++ rest')
      from by simp] at h
    rw [show matchNumAt ('-' :: (m0 ++ rest')) =
        (matchCore (m0 ++ rest')).map (fun x => '-' :: x)
      from by simp [matchNumAt, isSignChar]] at h
    cases hmc : matchCore (m0 ++ rest') with
    | none => rw [hmc] at h; cases h
    | some mc =>
      rw [hmc] at h
      have hmm : m = '-' :: mc := by simpa using h.symm
      subst hmm
      have hres := matchCore_maximal (m0 ++ rest') mc m0 rest' hmc rfl hct
      simpa using hres
  · subst hd
    rw [show ((['+'] : List Char) ++ m0) ++ rest' = '+' :: (m0 ++ rest')
      from by simp] at h
    rw [show matchNumAt ('+' :: (m0 ++ rest')) =
        (matchCore (m0 ++ rest')).map (fun x => '+' :: x)
      from by simp [matchNumAt, isSignChar]] at h
    cases hmc : matchCore (m0 ++ rest') with
    | none => rw [hmc] at h; cases h
    | some mc =>
      rw [hmc] at h
      have hmm : m = '+' :: mc := by simpa using h.symm
      subst hmm
      have hres := matchCore_maximal (m0 ++ rest') mc m0 rest' hmc rfl hct
      simpa using hres

/-- C3: for every non-skipped line, the recorded metric name is the first
whitespace token of the normalized line, and the recorded value is the
floating-point parse (commas removed) of the first substring of the
normalized line matching the decimal-number pattern: the returned match
starts at a position before which no match of the pattern starts, and it is
the longest match at that position. -/
theorem c3_first_numeric_match (line nm : List Char) (v : ℚ)
    (h : processLine line = some (nm, v)) :
    (splitWs (cleanLine (pyStrip line))).head? = some nm ∧
    ∃ i m rest,
      (cleanLine (pyStrip line)).drop i = m ++ rest ∧ IsNumToken m ∧
      (∀ j, j < i → ¬NumMatchAt (cleanLine (pyStrip line)) j) ∧
      (∀ m2 rest2, (cleanLine (pyStrip line)).drop i = m2 ++ rest2 →
        IsNumToken m2 → m2.length ≤ m.length) ∧
      floatOfChars (m.filter (fun c => !(c == ','))) = some v := by
  simp only [processLine] at h
  split at h
  · exact Option.noConfusion h
  · split at h
    · exact Option.noConfusion h
    · split at h
      · exact Option.noConfusion h
      · split at h
        · rename_i t0 ts heq
          split at h
          · exact Option.noConfusion h
          · rename_i m hsn
            split at h
            · exact Option.noConfusion h
            · rename_i v0 hfl
              have hpair : t0 = nm ∧ v0 = v := by
                have := Option.some_inj.1 h
                exact ⟨congrArg Prod.fst this, congrArg Prod.snd this⟩
              obtain ⟨rfl, rfl⟩ := hpair
              constructor
              · rw [heq]
                rfl
              · obtain ⟨i, hi, hnone⟩ := searchNum_some _ _ hsn
                obtain ⟨htok, rest, hrest⟩ := matchNumAt_sound _ _ hi
                refine ⟨i, m, rest, hrest, htok, ?_, ?_, hfl⟩
                · intro j hj hmatch
                  obtain ⟨m2, rest2, hdrop2, ht2⟩ := hmatch
                  have hsome := matchNumAt_isSome_of_token _ _ _ hdrop2 ht2
                  rw [hnone j hj] at hsome
                  cases hsome
                · intro m2 rest2 hdrop2 ht2
                  exact matchNumAt_maximal _ m m2 rest2 hi hdrop2 ht2
        · exact Option.noConfusion h

theorem c3_first_numeric_match_witness :
    (splitWs (cleanLine (pyStrip "latency_ms: 2.3".data))).head? =
      some "latency_ms".data :=
  (c3_first_numeric_match "latency_ms: 2.3".data "latency_ms".data (23 / 10)
    (by
      simp [processLine, pyStrip, cleanLine, splitWs, runsBy, searchNum,
        matchNumAt, matchCore, matchFrac, matchExp, floatOfChars, floatExp,
        natOfDigits, isDigitComma, isSignChar]
      norm_num)).1

theorem matchNumAt_isSome_of_digit (cs : List Char) (k : ℕ) (hk : k < cs.length)
    (hd : (cs.get ⟨k, hk⟩).isDigit = true) :
    (matchNumAt (cs.drop k)).isSome = true := by
  have hd2 : cs[k].isDigit = true := by
    rw [List.get_eq_getElem] at hd
    exact hd
  have hdrop : cs.drop k = cs[k] :: cs.drop (k + 1) := List.drop_eq_getElem_cons hk
  rw [hdrop]
  simp [matchNumAt, digit_not_sign _ hd2, matchCore, hd2]

/-- C10: the numeric search runs over the whole normalized line, metric-name
token included: the found match starts no later than any digit of the line,
so a digit inside the metric name is matched before any later token; in
particular the line `l2_misses 100` records the value 2 (from the digit in
the name), not 100. -/
theorem c10_digit_in_name :
    processLine "l2_misses 100".data = some ("l2_misses".data, 2) ∧
    ∀ (cs : List Char) (k : ℕ) (hk : k < cs.length),
      (cs.get ⟨k, hk⟩).isDigit = true →
      ∃ i m, i ≤ k ∧ matchNumAt (cs.drop i) = some m ∧ searchNum cs = some m := by
  constructor
  · simp [processLine, pyStrip, cleanLine, splitWs, runsBy, searchNum,
      matchNumAt, matchCore, matchFrac, matchExp, floatOfChars, floatExp,
      natOfDigits, isDigitComma, isSignChar]
  · intro cs k hk hd
    cases hs : searchNum cs with
    | none =>
      have := searchNum_none cs hs k
      have hsome := matchNumAt_isSome_of_digit cs k hk hd
      rw [this] at hsome
      cases hsome
    | some m =>
      obtain ⟨i, hi, hnone⟩ := searchNum_some cs m hs
      by_cases hik : i ≤ k
      · exact ⟨i, m, hik, hi, rfl⟩
      · have hki : k < i := Nat.lt_of_not_le hik
        have := hnone k hki
        have hsome := matchNumAt_isSome_of_digit cs k hk hd
        rw [this] at hsome
        cases hsome

theorem c10_digit_in_name_witness :
    processLine "l2_misses 100".data = some ("l2_misses".data, 2) ∧
    ∃ i m, i ≤ 1 ∧ matchNumAt ("l2 9".data.drop i) = some m ∧
      searchNum "l2 9".data = some m :=
  ⟨c10_digit_in_name.1,
    c10_digit_in_name.2 "l2 9".data 1 (by decide) (by decide)⟩
